import Mathlib

/-!
Verification of the incremental streaming-response renderer
(`src/internetcomputer.py`) against its specification.

Python strings are modelled as `List Char` (one entry per code point, matching
Python's `len`/slicing semantics).  Pure functions (`chunk_text`, the embed
body builders) are translated directly; the producer/consumer pair is modelled
as a step machine over an explicit queue-item type.
-/

namespace InternetComputer

/-- The set of characters `str.splitlines` treats as line boundaries
(`\n`, `\r`, `\v`, `\f`, `\x1c`, `\x1d`, `\x1e`, `\x85`, ` `, ` `;
`\r\n` is consumed as a single boundary by `splitlinesKE`). -/
def isLineBreak (c : Char) : Bool :=
  c = '\n' || c = '\r' || c = Char.ofNat 0x0b || c = Char.ofNat 0x0c ||
  c = Char.ofNat 0x1c || c = Char.ofNat 0x1d || c = Char.ofNat 0x1e ||
  c = Char.ofNat 0x85 || c = Char.ofNat 0x2028 || c = Char.ofNat 0x2029

/-- Fuel-indexed worker for `splitlinesKE`: `buf` holds the current line,
reversed.  A `\r\n` pair is one boundary; any other line-break character
(including a lone `\r`) ends the line by itself.  Fuel makes the recursion
structural; `fuel = l.length` always suffices since each step consumes at
least one character. -/
def slAuxF : Nat → List Char → List Char → List (List Char)
  | _, [], buf => if buf = [] then [] else [buf.reverse]
  | 0, _ :: _, _ => []
  | fuel + 1, c :: rest, buf =>
    if c = '\r' ∧ rest.head? = some '\n' then
      (buf.reverse ++ ['\r', '\n']) :: slAuxF fuel rest.tail []
    else if isLineBreak c then (buf.reverse ++ [c]) :: slAuxF fuel rest []
    else slAuxF fuel rest (c :: buf)

/-- Python `s.splitlines(keepends=True)`: split into lines, each keeping its
terminating line-break characters; a trailing line without a terminator is
kept; the empty string yields no lines. -/
def splitlinesKE (s : List Char) : List (List Char) :=
  slAuxF s.length s []

/-- Fuel-indexed worker for `pieces` (fuel makes the recursion structural so
concrete instances reduce in the kernel; `fuel = l.length` always suffices
when `0 < limit`). -/
def piecesF (limit : Nat) : Nat → List Char → List (List Char)
  | 0, _ => []
  | _, [] => []
  | fuel + 1, c :: rest => ((c :: rest).take limit) :: piecesF limit fuel ((c :: rest).drop limit)

/-- Python `line[i:i+limit] for i in range(0, len(line), limit)`: cut a list
into consecutive pieces of `limit` characters (the last may be shorter).
Python raises `ValueError` when `limit = 0`; every theorem assumes `0 < limit`. -/
def pieces (limit : Nat) (l : List Char) : List (List Char) :=
  piecesF limit l.length l

/-- The accumulator of `chunk_text`'s line loop: the flushed `chunks`, the
pending `buf` (a list of strings joined on flush, as in the Python), and the
running `total` length of `buf`. -/
structure ChunkState where
  chunks : List (List Char)
  buf : List (List Char)
  total : Nat
  deriving Repr, DecidableEq

/-- `if total + len(x) > limit and buf: chunks.append("".join(buf)); buf, total = [], 0` -/
def flushIf (limit : Nat) (st : ChunkState) (n : Nat) : ChunkState :=
  if limit < st.total + n ∧ st.buf ≠ [] then
    ⟨st.chunks ++ [st.buf.flatten], [], 0⟩
  else st

/-- Body of the inner `for i in range(0, len(line), limit)` loop:
flush if the piece would overflow, then append the piece. -/
def pushPiece (limit : Nat) (st : ChunkState) (piece : List Char) : ChunkState :=
  let st2 := flushIf limit st piece.length
  ⟨st2.chunks, st2.buf ++ [piece], st2.total + piece.length⟩

/-- Body of the outer `for line in s.splitlines(keepends=True)` loop. -/
def procLine (limit : Nat) (st : ChunkState) (line : List Char) : ChunkState :=
  let st2 := flushIf limit st line.length
  if limit < line.length then
    (pieces limit line).foldl (pushPiece limit) st2
  else
    ⟨st2.chunks, st2.buf ++ [line], st2.total + line.length⟩

/-- The trailing `if buf: chunks.append("".join(buf))` of `chunk_text`. -/
def finalize (st : ChunkState) : List (List Char) :=
  if st.buf ≠ [] then st.chunks ++ [st.buf.flatten] else st.chunks

/-- The `chunks` list of `chunk_text` as it stands just before the final
comprehension `[c.strip("\n") for c in chunks if c]` (with the trailing
`if buf: chunks.append("".join(buf))` applied); the short-input branch
`if len(s) <= limit: return [s]` is shared with `chunk_text`. -/
def chunkRaw (s : List Char) (limit : Nat) : List (List Char) :=
  if s.length ≤ limit then [s]
  else finalize ((splitlinesKE s).foldl (procLine limit) ⟨[], [], 0⟩)

/-- Python `c.strip(ch)`: drop every copy of `ch` from both ends. -/
def stripBoth (ch : Char) (l : List Char) : List Char :=
  ((l.dropWhile (· = ch)).reverse.dropWhile (· = ch)).reverse

/-- `chunk_text(s, limit)` from `src/internetcomputer.py` lines 60-79:
split text into chunks `≤ limit`, on line boundaries when possible. -/
def chunk_text (s : List Char) (limit : Nat) : List (List Char) :=
  if s.length ≤ limit then [s]
  else ((chunkRaw s limit).filter (fun c => c ≠ [])).map (stripBoth '\n')

/-! ### Basic properties of `splitlinesKE` and `pieces` -/

theorem slAuxF_flatten (fuel : Nat) :
    ∀ (l buf : List Char), l.length ≤ fuel →
      (slAuxF fuel l buf).flatten = buf.reverse ++ l := by
  induction fuel with
  | zero =>
    intro l buf hf
    match l with
    | [] =>
      by_cases h : buf = [] <;> simp [slAuxF, h]
  | succ n ih =>
    intro l buf hf
    match l with
    | [] =>
      by_cases h : buf = [] <;> simp [slAuxF, h]
    | c :: rest =>
      simp only [slAuxF]
      by_cases h1 : c = '\r' ∧ rest.head? = some '\n'
      · obtain ⟨rfl, hh⟩ := h1
        obtain ⟨rest2, rfl⟩ : ∃ t, rest = '\n' :: t := by
          match rest with
          | r :: t => simp at hh; exact ⟨t, by rw [hh]⟩
        simp only [List.length_cons] at hf
        rw [if_pos ⟨rfl, by simp⟩]
        have h3 := ih rest2 [] (by omega)
        simp [h3]
      · rw [if_neg h1]
        simp only [List.length_cons] at hf
        by_cases h2 : isLineBreak c
        · have h3 := ih rest [] (by omega)
          simp [h2, h3]
        · have h3 := ih rest (c :: buf) (by omega)
          simp [h2, h3]

theorem splitlinesKE_flatten (s : List Char) : (splitlinesKE s).flatten = s := by
  simp [splitlinesKE, slAuxF_flatten s.length s [] le_rfl]

theorem slAuxF_ne_nil (fuel : Nat) :
    ∀ (l buf : List Char), ∀ line ∈ slAuxF fuel l buf, line ≠ [] := by
  induction fuel with
  | zero =>
    intro l buf
    match l with
    | [] => by_cases h : buf = [] <;> simp [slAuxF, h]
    | c :: rest => simp [slAuxF]
  | succ n ih =>
    intro l buf
    match l with
    | [] => by_cases h : buf = [] <;> simp [slAuxF, h]
    | c :: rest =>
      simp only [slAuxF]
      by_cases h1 : c = '\r' ∧ rest.head? = some '\n'
      · rw [if_pos h1]
        simp only [List.mem_cons]
        rintro line (rfl | hm)
        · simp
        · exact ih _ _ line hm
      · rw [if_neg h1]
        by_cases h2 : isLineBreak c
        · simp only [h2, if_true, List.mem_cons]
          rintro line (rfl | hm)
          · simp
          · exact ih _ _ line hm
        · simp only [h2, if_false]
          exact ih _ _

theorem splitlinesKE_ne_nil (s : List Char) :
    ∀ line ∈ splitlinesKE s, line ≠ [] :=
  slAuxF_ne_nil s.length s []

theorem piecesF_flatten (limit fuel : Nat) (l : List Char)
    (hlim : 0 < limit) (hfuel : l.length ≤ fuel) :
    (piecesF limit fuel l).flatten = l := by
  induction fuel generalizing l with
  | zero =>
    have : l = [] := List.length_eq_zero.mp (Nat.le_zero.mp hfuel)
    simp [this, piecesF]
  | succ n ih =>
    match l with
    | [] => simp [piecesF]
    | c :: rest =>
      simp only [piecesF, List.flatten_cons]
      rw [ih _ (by simp at hfuel ⊢; omega)]
      exact List.take_append_drop _ _

theorem pieces_flatten (limit : Nat) (l : List Char) (hlim : 0 < limit) :
    (pieces limit l).flatten = l :=
  piecesF_flatten limit l.length l hlim le_rfl

theorem piecesF_mem (limit fuel : Nat) (l : List Char)
    (hlim : 0 < limit) :
    ∀ p ∈ piecesF limit fuel l, p ≠ [] ∧ p.length ≤ limit := by
  induction fuel generalizing l with
  | zero => simp [piecesF]
  | succ n ih =>
    match l with
    | [] => simp [piecesF]
    | c :: rest =>
      simp only [piecesF, List.mem_cons]
      rintro p (rfl | hm)
      · constructor
        · simp [List.take_eq_nil_iff]
          omega
        · simp
      · exact ih _ p hm

theorem pieces_mem (limit : Nat) (l : List Char) (hlim : 0 < limit) :
    ∀ p ∈ pieces limit l, p ≠ [] ∧ p.length ≤ limit :=
  piecesF_mem limit l.length l hlim

/-! ### The loop invariant of `chunk_text` -/

/-- All characters held by a `ChunkState`, in order. -/
def content (st : ChunkState) : List Char :=
  st.chunks.flatten ++ st.buf.flatten

/-- The invariant maintained by `chunk_text`'s loops: `total` caches the
buffered length, the buffer never exceeds `limit`, every flushed chunk is a
nonempty string of at most `limit` characters, and the buffer holds only
nonempty strings. -/
def Inv (limit : Nat) (st : ChunkState) : Prop :=
  st.total = st.buf.flatten.length ∧ st.total ≤ limit ∧
  (∀ c ∈ st.chunks, c ≠ [] ∧ c.length ≤ limit) ∧
  (∀ b ∈ st.buf, b ≠ [])

theorem flatten_ne_nil {l : List (List Char)} (h0 : l ≠ [])
    (h1 : ∀ b ∈ l, b ≠ []) : l.flatten ≠ [] := by
  match l with
  | [] => exact absurd rfl h0
  | b :: t =>
    have hb : b ≠ [] := h1 b (by simp)
    simp only [List.flatten_cons, ne_eq, List.append_eq_nil]
    intro ⟨hb2, _⟩
    exact hb hb2

theorem flushIf_content (limit : Nat) (st : ChunkState) (n : Nat) :
    content (flushIf limit st n) = content st := by
  unfold flushIf content
  split <;> simp

theorem flushIf_spec (limit : Nat) (st : ChunkState) (n : Nat)
    (h : Inv limit st) :
    Inv limit (flushIf limit st n) ∧
      ((flushIf limit st n).buf = [] ∨ (flushIf limit st n).total + n ≤ limit) := by
  obtain ⟨ht, hle, hch, hbuf⟩ := h
  unfold flushIf
  split
  · rename_i hcond
    refine ⟨⟨by simp, by simp, ?_, by simp⟩, Or.inl rfl⟩
    intro c hc
    simp only [List.mem_append, List.mem_singleton] at hc
    rcases hc with hc | rfl
    · exact hch c hc
    · exact ⟨flatten_ne_nil hcond.2 hbuf, by rw [← ht]; exact hle⟩
  · rename_i hcond
    rw [not_and_or, not_lt] at hcond
    refine ⟨⟨ht, hle, hch, hbuf⟩, ?_⟩
    rcases hcond with hc | hc
    · exact Or.inr hc
    · exact Or.inl (not_not.mp hc)

theorem append_inv (limit : Nat) (st : ChunkState) (x : List Char)
    (h : Inv limit st) (hdisj : st.buf = [] ∨ st.total + x.length ≤ limit)
    (hx : x ≠ []) (hxlen : x.length ≤ limit) :
    Inv limit ⟨st.chunks, st.buf ++ [x], st.total + x.length⟩ := by
  obtain ⟨ht, hle, hch, hbuf⟩ := h
  refine ⟨by simp [ht], ?_, hch, ?_⟩
  · dsimp only
    rcases hdisj with hb | hb
    · have h0 : st.total = 0 := by simp [ht, hb]
      omega
    · exact hb
  · intro b hb
    simp only [List.mem_append, List.mem_singleton] at hb
    rcases hb with hb | rfl
    · exact hbuf b hb
    · exact hx

theorem pushPiece_inv (limit : Nat) (st : ChunkState) (p : List Char)
    (h : Inv limit st) (hp : p ≠ []) (hplen : p.length ≤ limit) :
    Inv limit (pushPiece limit st p) := by
  obtain ⟨h1, h2⟩ := flushIf_spec limit st p.length h
  exact append_inv limit _ p h1 h2 hp hplen

theorem pushPiece_content (limit : Nat) (st : ChunkState) (p : List Char) :
    content (pushPiece limit st p) = content st ++ p := by
  unfold pushPiece
  have h := flushIf_content limit st p.length
  unfold content at h ⊢
  simp only [List.flatten_append, List.flatten_cons, List.flatten_nil,
    List.append_nil] at h ⊢
  rw [← List.append_assoc, h]

theorem foldl_pushPiece_inv (limit : Nat) (ps : List (List Char)) :
    ∀ st, Inv limit st → (∀ p ∈ ps, p ≠ [] ∧ p.length ≤ limit) →
      Inv limit (ps.foldl (pushPiece limit) st) := by
  induction ps with
  | nil => intro st h _; exact h
  | cons p t ih =>
    intro st h hps
    simp only [List.foldl_cons]
    exact ih _ (pushPiece_inv limit st p h (hps p (by simp)).1 (hps p (by simp)).2)
      (fun q hq => hps q (by simp [hq]))

theorem foldl_pushPiece_content (limit : Nat) (ps : List (List Char)) :
    ∀ st, content (ps.foldl (pushPiece limit) st) = content st ++ ps.flatten := by
  induction ps with
  | nil => intro st; simp
  | cons p t ih =>
    intro st
    simp only [List.foldl_cons, List.flatten_cons]
    rw [ih, pushPiece_content, List.append_assoc]

theorem procLine_inv (limit : Nat) (st : ChunkState) (line : List Char)
    (h : Inv limit st) (hlim : 0 < limit) (hline : line ≠ []) :
    Inv limit (procLine limit st line) := by
  unfold procLine
  obtain ⟨h1, h2⟩ := flushIf_spec limit st line.length h
  split
  · exact foldl_pushPiece_inv limit _ _ h1 (pieces_mem limit line hlim)
  · rename_i hshort
    exact append_inv limit _ line h1 h2 hline (by omega)

theorem procLine_content (limit : Nat) (st : ChunkState) (line : List Char)
    (hlim : 0 < limit) :
    content (procLine limit st line) = content st ++ line := by
  unfold procLine
  split
  · rw [foldl_pushPiece_content, flushIf_content, pieces_flatten limit line hlim]
  · have h := flushIf_content limit st line.length
    unfold content at h ⊢
    simp only [List.flatten_append, List.flatten_cons, List.flatten_nil,
      List.append_nil] at h ⊢
    rw [← List.append_assoc, h]

theorem foldl_procLine_inv (limit : Nat) (lines : List (List Char))
    (hlim : 0 < limit) :
    ∀ st, Inv limit st → (∀ l ∈ lines, l ≠ []) →
      Inv limit (lines.foldl (procLine limit) st) := by
  induction lines with
  | nil => intro st h _; exact h
  | cons l t ih =>
    intro st h hls
    simp only [List.foldl_cons]
    exact ih _ (procLine_inv limit st l h hlim (hls l (by simp)))
      (fun m hm => hls m (by simp [hm]))

theorem foldl_procLine_content (limit : Nat) (lines : List (List Char))
    (hlim : 0 < limit) :
    ∀ st, content (lines.foldl (procLine limit) st) = content st ++ lines.flatten := by
  induction lines with
  | nil => intro st; simp
  | cons l t ih =>
    intro st
    simp only [List.foldl_cons, List.flatten_cons]
    rw [ih, procLine_content limit st l hlim, List.append_assoc]

/-! ### Properties of `chunkRaw` -/

theorem initial_inv (limit : Nat) : Inv limit ⟨[], [], 0⟩ := by
  refine ⟨by simp, by simp, by simp, by simp⟩

theorem chunkRaw_flatten (s : List Char) (limit : Nat) (hlim : 0 < limit) :
    (chunkRaw s limit).flatten = s := by
  unfold chunkRaw
  split
  · simp
  · have hc := foldl_procLine_content limit (splitlinesKE s) hlim ⟨[], [], 0⟩
    rw [splitlinesKE_flatten] at hc
    unfold content at hc
    simp only [List.flatten_nil, List.append_nil, List.nil_append] at hc
    unfold finalize
    split
    · simp only [List.flatten_append, List.flatten_cons, List.flatten_nil,
        List.append_nil]
      exact hc
    · rename_i hb
      rw [not_not] at hb
      rw [hb] at hc
      simpa using hc

theorem chunkRaw_mem (s : List Char) (limit : Nat) (hlim : 0 < limit) :
    ∀ c ∈ chunkRaw s limit, c.length ≤ limit ∧ (limit < s.length → c ≠ []) := by
  unfold chunkRaw
  split
  · rename_i hshort
    intro c hc
    simp only [List.mem_singleton] at hc
    subst hc
    exact ⟨hshort, fun h => absurd h (by omega)⟩
  · rename_i hlong
    have hinv := foldl_procLine_inv limit (splitlinesKE s) hlim ⟨[], [], 0⟩
      (initial_inv limit) (splitlinesKE_ne_nil s)
    obtain ⟨ht, hle, hch, hbuf⟩ := hinv
    intro c hc
    unfold finalize at hc
    split at hc
    · rename_i hb
      simp only [List.mem_append, List.mem_singleton] at hc
      rcases hc with hc | rfl
      · exact ⟨(hch c hc).2, fun _ => (hch c hc).1⟩
      · exact ⟨by rw [← ht]; exact hle, fun _ => flatten_ne_nil hb hbuf⟩
    · exact ⟨(hch c hc).2, fun _ => (hch c hc).1⟩

/-! ### Properties of `stripBoth` -/

/-- The run of copies of `ch` trimmed from the front of `l` by `l.strip(ch)`. -/
def leadRun (ch : Char) (l : List Char) : List Char :=
  l.takeWhile (· = ch)

/-- The run of copies of `ch` trimmed from the back of `l` by `l.strip(ch)`. -/
def trailRun (ch : Char) (l : List Char) : List Char :=
  ((l.dropWhile (· = ch)).reverse.takeWhile (· = ch)).reverse

theorem stripBoth_length_le (ch : Char) (l : List Char) :
    (stripBoth ch l).length ≤ l.length := by
  unfold stripBoth
  calc ((l.dropWhile (· = ch)).reverse.dropWhile (· = ch)).reverse.length
      = ((l.dropWhile (· = ch)).reverse.dropWhile (· = ch)).length := by
        rw [List.length_reverse]
    _ ≤ (l.dropWhile (· = ch)).reverse.length := (List.dropWhile_sublist _).length_le
    _ = (l.dropWhile (· = ch)).length := by rw [List.length_reverse]
    _ ≤ l.length := (List.dropWhile_sublist _).length_le

theorem strip_decomp (ch : Char) (l : List Char) :
    leadRun ch l ++ stripBoth ch l ++ trailRun ch l = l := by
  unfold leadRun stripBoth trailRun
  conv_rhs => rw [← List.takeWhile_append_dropWhile (p := fun c => decide (c = ch)) (l := l)]
  rw [List.append_assoc]
  congr 1
  rw [← List.reverse_append, List.takeWhile_append_dropWhile, List.reverse_reverse]

theorem leadRun_all (ch : Char) (l : List Char) :
    ∀ x ∈ leadRun ch l, x = ch := by
  intro x hx
  have := List.mem_takeWhile_imp hx
  simpa using this

theorem trailRun_all (ch : Char) (l : List Char) :
    ∀ x ∈ trailRun ch l, x = ch := by
  intro x hx
  unfold trailRun at hx
  rw [List.mem_reverse] at hx
  have := List.mem_takeWhile_imp hx
  simpa using this

/-- `chunk_text` is the pre-strip chunk list with every element stripped of
its edge newlines; on the multi-chunk path the `if c` filter keeps every
chunk, because every pre-strip chunk is nonempty. -/
theorem chunk_text_eq_map (s : List Char) (limit : Nat) (hlim : 0 < limit)
    (hlong : limit < s.length) :
    chunk_text s limit = (chunkRaw s limit).map (stripBoth '\n') := by
  unfold chunk_text
  rw [if_neg (by omega)]
  congr 1
  apply List.filter_eq_self.mpr
  intro a ha
  have h := (chunkRaw_mem s limit hlim a ha).2 hlong
  simpa using h

/-! ### Embed bodies (`update_embed_with_answer`, `update_embed_with_partial`) -/

/-- `EMBED_FIELD_LIMIT = 1024` (line 34). -/
def EMBED_FIELD_LIMIT : Nat := 1024

/-- `ANSWER_TOTAL_LIMIT = 5500` (line 35); the spec's configurable `ANSWER_LIMIT`. -/
def ANSWER_TOTAL_LIMIT : Nat := 5500

/-- The characters Python `str.rstrip()` (no argument) treats as whitespace. -/
def isPySpace (c : Char) : Bool :=
  c = ' ' || c = '\t' || c = '\n' || c = '\r' ||
  c = Char.ofNat 0x0b || c = Char.ofNat 0x0c ||
  c = Char.ofNat 0x1c || c = Char.ofNat 0x1d ||
  c = Char.ofNat 0x1e || c = Char.ofNat 0x1f ||
  c = Char.ofNat 0x85 || c = Char.ofNat 0xa0 || c = Char.ofNat 0x1680 ||
  (0x2000 ≤ c.toNat && c.toNat ≤ 0x200a) ||
  c = Char.ofNat 0x2028 || c = Char.ofNat 0x2029 || c = Char.ofNat 0x202f ||
  c = Char.ofNat 0x205f || c = Char.ofNat 0x3000

/-- Python `s.rstrip()`: drop trailing whitespace. -/
def rstrip (l : List Char) : List Char :=
  (l.reverse.dropWhile isPySpace).reverse

/-- The truncation marker `"\n…(truncated)"` appended on overflow (lines 112, 137). -/
def TRUNC_MARKER : List Char := "\n…(truncated)".toList

/-- The cursor suffix `" ▋"` appended while streaming (line 139). -/
def CURSOR : List Char := " ▋".toList

/-- Lines 111-112 and 136-137:
`if len(answer) > LIMIT: answer = answer[:LIMIT].rstrip() + "\n…(truncated)"`.
The code hardcodes `limit = ANSWER_TOTAL_LIMIT`; the parameter is the spec's
configurable `ANSWER_LIMIT` (Scenario E uses 10). -/
def truncate_body (limit : Nat) (answer : List Char) : List Char :=
  if limit < answer.length then rstrip (answer.take limit) ++ TRUNC_MARKER
  else answer

/-- The body rendered by `update_embed_with_partial` (lines 136-139):
truncate, then `partial = (partial + " ▋").rstrip()` when `show_cursor`. -/
def partial_body (limit : Nat) (p : List Char) (show_cursor : Bool) : List Char :=
  if show_cursor then rstrip (truncate_body limit p ++ CURSOR)
  else truncate_body limit p

/-- The Answer field values built from a (truncated) body (lines 118-121 and
145-148): chunk at `EMBED_FIELD_LIMIT`, rendering an empty chunk as `"—"`. -/
def answer_field_values (body : List Char) : List (List Char) :=
  (chunk_text body EMBED_FIELD_LIMIT).map (fun c => if c = [] then "—".toList else c)

/-- `usage_text[:EMBED_FIELD_LIMIT]` (line 123). -/
def usage_field_value (usage : List Char) : List Char :=
  usage.take EMBED_FIELD_LIMIT

/-! ### The producer (`_produce_stream_sync`) and the transfer channel -/

/-- One item on the `asyncio.Queue`: a text delta or the `SENTINEL`. -/
inductive QItem where
  | delta (d : List Char)
  | sentinel
  deriving Repr, DecidableEq

/-- Outcome of the upstream streaming call as seen by `_produce_stream_sync`:
either `client.chat.completions.create` itself raises (`openFail`), or the
stream opens and yields `chunks` — each carrying an optional text delta
(`none` models a chunk without content, which is skipped) — after which
iteration either finishes normally or raises (`midFail`). -/
inductive UpstreamOutcome where
  | openFail
  | run (chunks : List (Option (List Char))) (midFail : Bool)

/-- Everything `_produce_stream_sync` (lines 280-299) enqueues, in order.
When `create` raises, the `try/finally` has not begun, so nothing is
enqueued.  Otherwise each chunk's `delta.content` is forwarded iff truthy
(non-`None` and nonempty), and the `finally` enqueues `SENTINEL` whether or
not iteration raised (`midFail` does not change what was enqueued up to the
failure point, which is the prefix of chunks listed). -/
def produceItems : UpstreamOutcome → List QItem
  | .openFail => []
  | .run chunks _ =>
    (chunks.filterMap fun c =>
      match c with
      | some d => if d ≠ [] then some (QItem.delta d) else none
      | none => none) ++ [QItem.sentinel]

/-- Number of `SENTINEL`s in a channel history. -/
def countSentinel (items : List QItem) : Nat :=
  items.countP fun i => decide (i = QItem.sentinel)

/-! ### The consumer (`smooth_typing_display`) -/

/-- The loop state of `smooth_typing_display`: the accumulated text
(`"".join(assembled)`), `shown_len`, and `done`. -/
structure ConsState where
  assembled : List Char
  shown_len : Nat
  done : Bool
  deriving Repr, DecidableEq

/-- Initial state: `assembled = []`, `shown_len = 0`, `done = False`. -/
def initCons : ConsState := ⟨[], 0, false⟩

/-- Handling of one drained queue item (lines 247-254). -/
def drain1 (s : ConsState) (i : QItem) : ConsState :=
  match i with
  | .sentinel => ⟨s.assembled, s.shown_len, true⟩
  | .delta d => ⟨s.assembled ++ d, s.shown_len, s.done⟩

/-- The non-blocking drain of everything queued at the top of a tick. -/
def drain (s : ConsState) (items : List QItem) : ConsState :=
  items.foldl drain1 s

/-- `target_len = min(len(current), shown_len + CHARS_PER_TICK)` (line 257). -/
def target_len (cpt : Nat) (s : ConsState) : Nat :=
  min s.assembled.length (s.shown_len + cpt)

/-- One iteration of the `while True` loop (lines 244-275): drain the queue,
then if `target_len > shown_len` render the partial prefix and advance
`shown_len`.  Returns the post-tick state and the partial text rendered this
tick (if any); the cosmetic punctuation micro-pause and the render-sink
failures swallowed by the `try/except` do not affect the state. -/
def tick (cpt : Nat) (s : ConsState) (items : List QItem) : ConsState × Option (List Char) :=
  if (drain s items).shown_len < target_len cpt (drain s items) then
    (⟨(drain s items).assembled, target_len cpt (drain s items), (drain s items).done⟩,
     some ((drain s items).assembled.take (target_len cpt (drain s items))))
  else (drain s items, none)

/-- `if done and shown_len >= len(current): return current` (lines 272-273). -/
def returnsNow (s : ConsState) : Bool :=
  s.done && decide (s.assembled.length ≤ s.shown_len)

/-- Run the consumer loop over a finite schedule (`sched` lists the queue
items drained at successive ticks).  Produces the returned text (`none` if
the loop has not returned within the schedule), the final state, and the
partial bodies rendered, in order. -/
def runCons (cpt : Nat) : List (List QItem) → ConsState → Option (List Char) × ConsState × List (List Char)
  | [], s => (none, s, [])
  | items :: rest, s =>
    if returnsNow (tick cpt s items).1 then
      (some (tick cpt s items).1.assembled, (tick cpt s items).1, (tick cpt s items).2.toList)
    else
      ((runCons cpt rest (tick cpt s items).1).1,
       (runCons cpt rest (tick cpt s items).1).2.1,
       (tick cpt s items).2.toList ++ (runCons cpt rest (tick cpt s items).1).2.2)

/-! ### Helper lemmas: `rstrip`, truncation bounds, field bounds -/

theorem rstrip_length_le (l : List Char) : (rstrip l).length ≤ l.length := by
  unfold rstrip
  calc (l.reverse.dropWhile isPySpace).reverse.length
      = (l.reverse.dropWhile isPySpace).length := by rw [List.length_reverse]
    _ ≤ l.reverse.length := (List.dropWhile_sublist _).length_le
    _ = l.length := by rw [List.length_reverse]

theorem rstrip_append_cursor (l : List Char) : rstrip (l ++ CURSOR) = l ++ CURSOR := by
  have hc : CURSOR = [' ', '▋'] := by decide
  unfold rstrip
  rw [hc, List.reverse_append]
  have h1 : ([' ', '▋'] : List Char).reverse = ['▋', ' '] := by decide
  have h2 : isPySpace '▋' = false := by decide
  rw [h1]
  simp [List.dropWhile_cons, h2]

theorem dropWhile_replicate_of_neg (p : Char → Bool) (c : Char) (n : Nat)
    (h : p c = false) :
    (List.replicate n c).dropWhile p = List.replicate n c := by
  cases n with
  | zero => simp
  | succ m => simp [List.replicate_succ, List.dropWhile_cons, h]

theorem chunk_text_length_le (s : List Char) (limit : Nat) (hlim : 0 < limit) :
    ∀ c ∈ chunk_text s limit, c.length ≤ limit := by
  unfold chunk_text
  split
  · rename_i hshort
    intro c hc
    simp only [List.mem_singleton] at hc
    subst hc
    exact hshort
  · intro c hc
    simp only [List.mem_map] at hc
    obtain ⟨r, hr, rfl⟩ := hc
    have hr2 : r ∈ chunkRaw s limit := List.mem_of_mem_filter hr
    calc (stripBoth '\n' r).length
        ≤ r.length := stripBoth_length_le '\n' r
      _ ≤ limit := (chunkRaw_mem s limit hlim r hr2).1

theorem chunk_text_short (s : List Char) (limit : Nat) (hshort : s.length ≤ limit) :
    chunk_text s limit = [s] := by
  unfold chunk_text
  rw [if_pos hshort]

theorem truncate_body_length_le (limit : Nat) (answer : List Char) :
    (truncate_body limit answer).length ≤ limit + TRUNC_MARKER.length := by
  unfold truncate_body
  split
  · rw [List.length_append]
    have h1 := rstrip_length_le (answer.take limit)
    have h2 : (answer.take limit).length ≤ limit := by simp
    omega
  · rename_i h
    omega

theorem partial_body_length_le (limit : Nat) (p : List Char) (sc : Bool) :
    (partial_body limit p sc).length ≤ limit + TRUNC_MARKER.length + CURSOR.length := by
  unfold partial_body
  split
  · calc (rstrip (truncate_body limit p ++ CURSOR)).length
        ≤ (truncate_body limit p ++ CURSOR).length := rstrip_length_le _
      _ = (truncate_body limit p).length + CURSOR.length := List.length_append _ _
      _ ≤ limit + TRUNC_MARKER.length + CURSOR.length := by
          have := truncate_body_length_le limit p
          omega
  · have := truncate_body_length_le limit p
    omega

theorem answer_field_values_le (body : List Char) :
    ∀ f ∈ answer_field_values body, f.length ≤ EMBED_FIELD_LIMIT := by
  intro f hf
  unfold answer_field_values at hf
  simp only [List.mem_map] at hf
  obtain ⟨c, hc, rfl⟩ := hf
  split
  · decide
  · exact chunk_text_length_le body EMBED_FIELD_LIMIT (by decide) c hc

/-! ### Helper lemmas: the consumer step machine -/

theorem drain1_shown (s : ConsState) (i : QItem) :
    (drain1 s i).shown_len = s.shown_len := by
  cases i <;> rfl

theorem drain_shown (items : List QItem) :
    ∀ s : ConsState, (drain s items).shown_len = s.shown_len := by
  induction items with
  | nil => intro s; rfl
  | cons i t ih =>
    intro s
    show (drain (drain1 s i) t).shown_len = s.shown_len
    rw [ih (drain1 s i), drain1_shown]

theorem drain1_done_no_sentinel (s : ConsState) (i : QItem)
    (h : i ≠ QItem.sentinel) : (drain1 s i).done = s.done := by
  cases i with
  | delta d => rfl
  | sentinel => exact absurd rfl h

theorem drain_done_no_sentinel (items : List QItem) :
    ∀ s : ConsState, QItem.sentinel ∉ items → (drain s items).done = s.done := by
  induction items with
  | nil => intro s _; rfl
  | cons i t ih =>
    intro s hns
    show (drain (drain1 s i) t).done = s.done
    rw [ih (drain1 s i) (fun h => hns (by simp [h])),
      drain1_done_no_sentinel s i (fun h => hns (by simp [h]))]

theorem tick_shown_le (cpt : Nat) (s : ConsState) (items : List QItem) :
    s.shown_len ≤ (tick cpt s items).1.shown_len := by
  unfold tick
  have hd := drain_shown items s
  split
  · rename_i h
    show s.shown_len ≤ target_len cpt (drain s items)
    omega
  · show s.shown_len ≤ (drain s items).shown_len
    omega

theorem tick_done_no_sentinel (cpt : Nat) (s : ConsState) (items : List QItem)
    (h : QItem.sentinel ∉ items) : (tick cpt s items).1.done = s.done := by
  unfold tick
  have hd := drain_done_no_sentinel items s h
  split
  · exact hd
  · exact hd

theorem tick_edit_spec (cpt : Nat) (s : ConsState) (items : List QItem)
    (p : List Char) (h : (tick cpt s items).2 = some p) :
    p.length = (tick cpt s items).1.shown_len := by
  unfold tick at h ⊢
  split at h
  · rename_i hlt
    rw [if_pos hlt]
    simp only [Option.some_inj] at h
    subst h
    show (List.take (target_len cpt (drain s items)) (drain s items).assembled).length
        = target_len cpt (drain s items)
    rw [List.length_take]
    unfold target_len
    omega
  · exact absurd h (by simp)

theorem returnsNow_spec (s : ConsState) (h : returnsNow s = true) :
    s.done = true ∧ s.assembled.length ≤ s.shown_len := by
  unfold returnsNow at h
  simp at h
  exact h

theorem runCons_spec (cpt : Nat) :
    ∀ (sched : List (List QItem)) (s : ConsState),
      s.shown_len ≤ (runCons cpt sched s).2.1.shown_len ∧
      ((runCons cpt sched s).2.2.map List.length).Pairwise (· ≤ ·) ∧
      (∀ e ∈ (runCons cpt sched s).2.2,
        s.shown_len ≤ e.length ∧ e.length ≤ (runCons cpt sched s).2.1.shown_len) ∧
      (∀ t, (runCons cpt sched s).1 = some t →
        t = (runCons cpt sched s).2.1.assembled ∧
        t.length ≤ (runCons cpt sched s).2.1.shown_len) := by
  intro sched
  induction sched with
  | nil =>
    intro s
    refine ⟨le_rfl, by simp [runCons], by simp [runCons], ?_⟩
    intro t ht
    simp [runCons] at ht
  | cons items rest ih =>
    intro s
    have hle : s.shown_len ≤ (tick cpt s items).1.shown_len := tick_shown_le cpt s items
    by_cases hr : returnsNow (tick cpt s items).1 = true
    · unfold runCons
      rw [if_pos hr]
      obtain ⟨hd, hcov⟩ := returnsNow_spec _ hr
      refine ⟨hle, ?_, ?_, ?_⟩
      · cases h2 : (tick cpt s items).2 <;> simp
      · intro e he
        cases h2 : (tick cpt s items).2 with
        | none => rw [h2] at he; simp at he
        | some p =>
          rw [h2] at he
          simp only [Option.toList_some, List.mem_singleton] at he
          subst he
          have hp := tick_edit_spec cpt s items e h2
          exact ⟨by omega, by dsimp only; omega⟩
      · intro t ht
        simp only [Option.some_inj] at ht
        subst ht
        exact ⟨rfl, hcov⟩
    · unfold runCons
      rw [if_neg hr]
      obtain ⟨ih1, ih2, ih3, ih4⟩ := ih (tick cpt s items).1
      refine ⟨le_trans hle ih1, ?_, ?_, ih4⟩
      · cases h2 : (tick cpt s items).2 with
        | none => simpa using ih2
        | some p =>
          simp only [Option.toList_some, List.singleton_append, List.map_cons]
          refine List.Pairwise.cons ?_ ih2
          intro y hy
          simp only [List.mem_map] at hy
          obtain ⟨e, he, rfl⟩ := hy
          have hp := tick_edit_spec cpt s items p h2
          have := (ih3 e he).1
          omega
      · intro e he
        cases h2 : (tick cpt s items).2 with
        | none =>
          rw [h2] at he
          simp only [Option.toList_none, List.nil_append] at he
          exact ⟨le_trans hle (ih3 e he).1, (ih3 e he).2⟩
        | some p =>
          rw [h2] at he
          simp only [Option.toList_some, List.singleton_append, List.mem_cons] at he
          rcases he with rfl | he
          · have hp := tick_edit_spec cpt s items e h2
            exact ⟨by omega, by dsimp only; omega⟩
          · exact ⟨le_trans hle (ih3 e he).1, (ih3 e he).2⟩

theorem runCons_no_sentinel (cpt : Nat) :
    ∀ (sched : List (List QItem)) (s : ConsState),
      (∀ items ∈ sched, QItem.sentinel ∉ items) → s.done = false →
      (runCons cpt sched s).1 = none ∧ (runCons cpt sched s).2.1.done = false := by
  intro sched
  induction sched with
  | nil => intro s _ hd; exact ⟨rfl, hd⟩
  | cons items rest ih =>
    intro s hns hd
    have hdone : (tick cpt s items).1.done = false := by
      rw [tick_done_no_sentinel cpt s items (hns items (by simp))]
      exact hd
    have hret : returnsNow (tick cpt s items).1 = false := by
      unfold returnsNow
      rw [hdone]
      simp
    unfold runCons
    rw [if_neg (by rw [hret]; simp)]
    exact ih (tick cpt s items).1 (fun i hi => hns i (by simp [hi])) hdone

theorem countSentinel_run (chunks : List (Option (List Char))) (mf : Bool) :
    countSentinel (produceItems (UpstreamOutcome.run chunks mf)) = 1 := by
  unfold produceItems countSentinel
  rw [List.countP_append]
  have h0 : (chunks.filterMap fun c =>
      match c with
      | some d => if d ≠ [] then some (QItem.delta d) else none
      | none => none).countP (fun i => decide (i = QItem.sentinel)) = 0 := by
    rw [List.countP_eq_zero]
    intro i hi
    rw [List.mem_filterMap] at hi
    obtain ⟨c, hc, hf⟩ := hi
    match c with
    | some d =>
      dsimp only at hf
      split at hf
      · simp only [Option.some_inj] at hf
        subst hf
        simp
      · exact absurd hf (by simp)
    | none => exact absurd hf (by simp)
  rw [h0]
  simp

/-! ### Claim theorems -/

/-- C1: refuted by the code.  `client.chat.completions.create` (line 282)
runs before the `try/finally` begins, so when opening the stream raises,
`_produce_stream_sync` enqueues nothing at all — no SENTINEL — and
`smooth_typing_display`, fed that channel, never returns (no number of
subsequent empty ticks makes it return, since `done` is set only by the
SENTINEL).  For a stream that does open — including one that raises mid-read
and one that yields zero deltas — exactly one SENTINEL is placed, as the
claim states. -/
theorem producer_open_failure_loses_sentinel :
    produceItems UpstreamOutcome.openFail = [] ∧
    countSentinel (produceItems UpstreamOutcome.openFail) = 0 ∧
    (∀ cpt n,
      (runCons cpt (produceItems UpstreamOutcome.openFail :: List.replicate n [])
        initCons).1 = none) ∧
    (∀ chunks midFail,
      countSentinel (produceItems (UpstreamOutcome.run chunks midFail)) = 1) := by
  refine ⟨rfl, rfl, ?_, countSentinel_run⟩
  intro cpt n
  refine (runCons_no_sentinel cpt _ initCons ?_ rfl).1
  intro items hi
  simp only [produceItems, List.mem_cons, List.mem_replicate] at hi
  rcases hi with rfl | ⟨_, rfl⟩ <;> simp

/-- C2 counterexample: the consumer has no stall watchdog — after 1000
consecutive ticks (≈140 seconds at the default `CHAR_RATE_MS = 140`, far
beyond any plausible stall timeout) with no delta and no terminal event,
`done` is still false and the loop has not finalized, whereas the claim says
`done` is forced to true once `STALL_TIMEOUT` elapses. -/
theorem no_watchdog_counterexample :
    (runCons 40 (List.replicate 1000 []) initCons).1 = none ∧
    (runCons 40 (List.replicate 1000 []) initCons).2.1.done = false := by
  refine runCons_no_sentinel 40 _ initCons ?_ rfl
  intro items hi
  rw [List.eq_of_mem_replicate hi]
  simp

/-- C2 amended: `smooth_typing_display` implements no stall timeout at all:
`done` is set only by draining the SENTINEL.  If no terminal event is ever
received then — no matter how many ticks elapse and what deltas arrive — the
loop never finalizes: it does not return and `done` stays false. -/
theorem consumer_has_no_stall_watchdog (cpt : Nat) (sched : List (List QItem))
    (hns : ∀ items ∈ sched, QItem.sentinel ∉ items) :
    (runCons cpt sched initCons).1 = none ∧
    (runCons cpt sched initCons).2.1.done = false :=
  runCons_no_sentinel cpt sched initCons hns rfl

theorem consumer_has_no_stall_watchdog_witness :
    (runCons 40 [[QItem.delta ['h']], [], []] initCons).1 = none ∧
    (runCons 40 [[QItem.delta ['h']], [], []] initCons).2.1.done = false :=
  consumer_has_no_stall_watchdog 40 [[QItem.delta ['h']], [], []] (by decide)

/-- C3: for every string `s` and positive `limit`, every element of
`chunk_text s limit` has length at most `limit`. -/
theorem chunk_text_elements_within_limit (s : List Char) (limit : Nat)
    (hlim : 0 < limit) :
    ∀ c ∈ chunk_text s limit, c.length ≤ limit :=
  chunk_text_length_le s limit hlim

theorem chunk_text_elements_within_limit_witness :
    (String.toList "ab").length ≤ 2 :=
  chunk_text_elements_within_limit ("ab\ncd".toList) 2 (by decide)
    ("ab".toList) (by decide)

/-- C4: chunking loses no data: the pre-strip chunks concatenate to exactly
`s` (every input character in exactly one chunk, order preserved); each
result element is its pre-strip chunk with a run of `'\n'` removed from each
edge and nothing else; and on the multi-chunk path the result is exactly the
stripped pre-strip chunks — so reinserting the trimmed newlines reproduces
`s` exactly.  (On the short path the single element is `s` itself.) -/
theorem chunk_text_lossless (s : List Char) (limit : Nat) (hlim : 0 < limit) :
    (chunkRaw s limit).flatten = s ∧
    (∀ c ∈ chunkRaw s limit,
      leadRun '\n' c ++ stripBoth '\n' c ++ trailRun '\n' c = c ∧
      (∀ x ∈ leadRun '\n' c, x = '\n') ∧ (∀ x ∈ trailRun '\n' c, x = '\n')) ∧
    (limit < s.length →
      chunk_text s limit = (chunkRaw s limit).map (stripBoth '\n')) ∧
    (s.length ≤ limit → chunk_text s limit = [s]) := by
  refine ⟨chunkRaw_flatten s limit hlim, ?_, chunk_text_eq_map s limit hlim,
    chunk_text_short s limit⟩
  intro c _
  exact ⟨strip_decomp '\n' c, leadRun_all '\n' c, trailRun_all '\n' c⟩

theorem chunk_text_lossless_witness :
    (chunkRaw ("a\nb".toList) 2).flatten = "a\nb".toList :=
  (chunk_text_lossless ("a\nb".toList) 2 (by decide)).1

/-- C5 counterexample: the truncated visible body exceeds the limit by the
appended marker.  Scenario E itself breaks the bound: with `ANSWER_LIMIT = 10`
and accumulated text `"0123456789ABC"` the final body is
`"0123456789\n…(truncated)"` — 23 > 10 characters; at the hardcoded
`ANSWER_TOTAL_LIMIT = 5500`, 5501 characters of `'a'` yield a 5513-character
body. -/
theorem answer_body_limit_counterexample :
    truncate_body 10 ("0123456789ABC".toList) = "0123456789".toList ++ TRUNC_MARKER ∧
    10 < (truncate_body 10 ("0123456789ABC".toList)).length ∧
    ANSWER_TOTAL_LIMIT <
      (truncate_body ANSWER_TOTAL_LIMIT (List.replicate 5501 'a')).length := by
  refine ⟨by decide, by decide, ?_⟩
  have hm : TRUNC_MARKER.length = 13 := by decide
  have h : (truncate_body ANSWER_TOTAL_LIMIT (List.replicate 5501 'a')).length
      = 5500 + TRUNC_MARKER.length := by
    unfold truncate_body
    rw [if_pos (show ANSWER_TOTAL_LIMIT < (List.replicate 5501 'a').length by
      rw [List.length_replicate]; decide)]
    rw [List.length_append]
    have ht : (List.replicate 5501 'a').take ANSWER_TOTAL_LIMIT
        = List.replicate 5500 'a' := by
      rw [List.take_replicate]
      congr 1
    rw [ht]
    unfold rstrip
    rw [List.reverse_replicate,
      dropWhile_replicate_of_neg isPySpace 'a' 5500 (by decide),
      List.reverse_replicate, List.length_replicate]
  have hA : ANSWER_TOTAL_LIMIT = 5500 := rfl
  omega

/-- C5 amended: the retained prefix of the answer is bounded by the limit but
the rendered body may exceed it by the 13-character truncation marker (plus
the 2-character cursor suffix in partial mode):
`len(truncate_body limit a) ≤ limit + 13` and
`len(partial_body limit p sc) ≤ limit + 15`; every embed field value produced
from such a body — answer chunks (an empty chunk renders as `"—"`) and the
usage field — is at most `EMBED_FIELD_LIMIT`; and Scenario E holds as stated:
the final body is the first 10 characters plus the truncation marker. -/
theorem answer_body_bounds (limit : Nat) (answer p usage : List Char) (sc : Bool) :
    (truncate_body limit answer).length ≤ limit + TRUNC_MARKER.length ∧
    (partial_body limit p sc).length ≤ limit + TRUNC_MARKER.length + CURSOR.length ∧
    (∀ f ∈ answer_field_values (truncate_body limit answer),
      f.length ≤ EMBED_FIELD_LIMIT) ∧
    (∀ f ∈ answer_field_values (partial_body limit p sc),
      f.length ≤ EMBED_FIELD_LIMIT) ∧
    (usage_field_value usage).length ≤ EMBED_FIELD_LIMIT ∧
    truncate_body 10 ("0123456789ABC".toList) = "0123456789".toList ++ TRUNC_MARKER := by
  refine ⟨truncate_body_length_le limit answer, partial_body_length_le limit p sc,
    answer_field_values_le _, answer_field_values_le _, ?_, by decide⟩
  show (usage.take EMBED_FIELD_LIMIT).length ≤ EMBED_FIELD_LIMIT
  rw [List.length_take]
  exact min_le_left _ _

/-- C6 counterexample: with partial `"abc\n"` and `show_cursor = true` the
rendered body is `"abc\n ▋"`: the code appends `" ▋"` first and rstrips
second (a no-op, since the glyph is not whitespace), so the glyph does not
immediately follow the last non-whitespace character — contradicting
trim-then-append under either reading of the glyph tail. -/
theorem cursor_append_counterexample :
    partial_body ANSWER_TOTAL_LIMIT ("abc\n".toList) true = "abc\n ▋".toList ∧
    partial_body ANSWER_TOTAL_LIMIT ("abc\n".toList) true
      ≠ rstrip ("abc\n".toList) ++ "▋".toList ∧
    partial_body ANSWER_TOTAL_LIMIT ("abc\n".toList) true
      ≠ rstrip ("abc\n".toList) ++ " ▋".toList := by
  exact ⟨by decide, by decide, by decide⟩

/-- C6 amended: when `show_cursor` is true the code computes
`(partial + " ▋").rstrip()`; the glyph is not whitespace, so the rstrip
removes nothing and the rendered body is exactly the (truncated) partial
followed by `" ▋"` — any trailing whitespace of the partial is preserved
before the glyph rather than trimmed. -/
theorem cursor_appended_after_whitespace (limit : Nat) (p : List Char) :
    partial_body limit p true = truncate_body limit p ++ CURSOR := by
  show rstrip (truncate_body limit p ++ CURSOR) = truncate_body limit p ++ CURSOR
  exact rstrip_append_cursor _

theorem cursor_appended_after_whitespace_witness :
    partial_body 5 ['a'] true = truncate_body 5 ['a'] ++ CURSOR :=
  cursor_appended_after_whitespace 5 ['a']

/-- C7 counterexample: the result can contain empty strings — the short path
returns `[""]` for the empty input, and on the multi-chunk path a chunk
consisting solely of newlines strips to `""` and is kept, because the `if c`
filter runs before `strip("\n")`. -/
theorem empty_chunk_counterexample :
    [] ∈ chunk_text ([] : List Char) 1 ∧
    chunk_text ['\n', '\n', '\n', '\n'] 2 = [[], []] := by
  exact ⟨by decide, by decide⟩

/-- C7 amended: if `len(text) ≤ limit` the result is the single element
`[text]`; on the multi-chunk path the discard of empty elements happens
before newline-stripping and is vacuous (every pre-strip chunk is nonempty) —
but elements of the result may nevertheless be empty after stripping. -/
theorem chunk_single_and_prestrip_nonempty (s : List Char) (limit : Nat)
    (hlim : 0 < limit) :
    (s.length ≤ limit → chunk_text s limit = [s]) ∧
    (limit < s.length →
      (∀ r ∈ chunkRaw s limit, r ≠ []) ∧
      chunk_text s limit = (chunkRaw s limit).map (stripBoth '\n')) := by
  refine ⟨chunk_text_short s limit, ?_⟩
  intro h
  exact ⟨fun r hr => (chunkRaw_mem s limit hlim r hr).2 h,
    chunk_text_eq_map s limit hlim h⟩

theorem chunk_single_and_prestrip_nonempty_witness :
    chunk_text ("hi".toList) 5 = ["hi".toList] :=
  (chunk_single_and_prestrip_nonempty ("hi".toList) 5 (by decide)).1 (by decide)

/-- `chunk_join s limit`: the elements of `chunk_text s limit` rejoined with
exactly the newlines trimmed from each element's edges reinserted and no
separators added or removed beyond that — by `strip_decomp` each pre-strip
chunk is trimmed-lead ++ element ++ trimmed-trail, so this rejoining is the
concatenation of the pre-strip chunks. -/
def chunk_join (s : List Char) (limit : Nat) : List Char :=
  (chunkRaw s limit).flatten

/-- C8: `chunk_text` is idempotent under rejoining: rejoining the elements
with no separators added or removed beyond what was trimmed and re-chunking
at the same limit yields the same result. -/
theorem chunk_text_idempotent (s : List Char) (limit : Nat) (hlim : 0 < limit) :
    chunk_text (chunk_join s limit) limit = chunk_text s limit := by
  unfold chunk_join
  rw [chunkRaw_flatten s limit hlim]

theorem chunk_text_idempotent_witness :
    chunk_text (chunk_join ("aa\nbb".toList) 2) 2 = chunk_text ("aa\nbb".toList) 2 :=
  chunk_text_idempotent ("aa\nbb".toList) 2 (by decide)

/-- C9: across one run of `smooth_typing_display`, `shown_len` never
decreases, the partial render edits have non-decreasing lengths (each edit's
length is the `shown_len` it advances to — edits never skip backward), and
when the loop returns, the returned text is the accumulated text and its
length is at most the final `shown_len`: the final reveal covers the entire
accumulated text. -/
theorem consumer_monotone_reveal (cpt : Nat) (sched : List (List QItem))
    (s : ConsState) :
    s.shown_len ≤ (runCons cpt sched s).2.1.shown_len ∧
    ((runCons cpt sched s).2.2.map List.length).Pairwise (· ≤ ·) ∧
    (∀ e ∈ (runCons cpt sched s).2.2,
      s.shown_len ≤ e.length ∧ e.length ≤ (runCons cpt sched s).2.1.shown_len) ∧
    (∀ t, (runCons cpt sched s).1 = some t →
      t = (runCons cpt sched s).2.1.assembled ∧
      t.length ≤ (runCons cpt sched s).2.1.shown_len) :=
  runCons_spec cpt sched s

theorem consumer_monotone_reveal_witness :
    "Hello world".toList =
      (runCons 100 [[QItem.delta ("Hel".toList), QItem.delta ("lo ".toList),
        QItem.delta ("world".toList), QItem.sentinel]] initCons).2.1.assembled ∧
    ("Hello world".toList).length ≤
      (runCons 100 [[QItem.delta ("Hel".toList), QItem.delta ("lo ".toList),
        QItem.delta ("world".toList), QItem.sentinel]] initCons).2.1.shown_len :=
  (consumer_monotone_reveal 100
    [[QItem.delta ("Hel".toList), QItem.delta ("lo ".toList),
      QItem.delta ("world".toList), QItem.sentinel]] initCons).2.2.2
    ("Hello world".toList) (by decide)

/-- C10: for every string `s` and positive `limit` with `len(s) ≤ limit`,
`chunk_text s limit` is exactly `[s]`, unchanged — no newline trimming and no
empty-element filtering happens on the short-input path (in particular
`chunk_text "" limit = [""]` and `chunk_text "\nx\n" limit = ["\nx\n"]`). -/
theorem chunk_text_short_path (s : List Char) (limit : Nat) (_hlim : 0 < limit)
    (hshort : s.length ≤ limit) : chunk_text s limit = [s] :=
  chunk_text_short s limit hshort

theorem chunk_text_short_path_witness :
    chunk_text ([] : List Char) 1 = [[]] ∧
    chunk_text ("\nx\n".toList) 3 = ["\nx\n".toList] :=
  ⟨chunk_text_short_path [] 1 (by decide) (by decide),
   chunk_text_short_path ("\nx\n".toList) 3 (by decide) (by decide)⟩

end InternetComputer

/-! ### Concrete sanity checks against hand-traces of the Python -/

section SanityChecks
open InternetComputer
example : chunk_text "hello".toList 1024 = ["hello".toList] := by decide
example : chunk_text "".toList 5 = [[]] := by decide
example : chunk_text ['\n','x','\n'] 1 = [[], ['x'], []] := by decide
example : chunk_text ['\n','\n','\n','\n'] 2 = [[], []] := by decide
example : chunk_text "a\nb".toList 2 = [['a'], ['b']] := by decide
example : chunk_text "aaa\n\n\nbbb".toList 4 = [['a','a','a'], [], ['b','b','b']] := by decide
-- Scenario C: deltas then sentinel, one tick, returns "Hello world"
example :
    (runCons 100 [[QItem.delta "Hel".toList, QItem.delta "lo ".toList,
      QItem.delta "world".toList, QItem.sentinel]] initCons).1
      = some "Hello world".toList := by decide
-- C2-style: 50 empty ticks, no watchdog
example : (runCons 40 (List.replicate 50 []) initCons).1 = none := by decide
-- C6: cursor after whitespace
example : partial_body ANSWER_TOTAL_LIMIT "abc\n".toList true = "abc\n ▋".toList := by decide
-- Scenario E
example : truncate_body 10 "0123456789ABC".toList = "0123456789".toList ++ TRUNC_MARKER := by decide
end SanityChecks
